import Mathlib

/-!
Shallow embedding of the zustand-based form-state management library:
the shared multi-form store (`useFormStore.tsx`) and the local-state
form hook with schema validation (the unnamed hook file).

JavaScript objects are modelled as association lists `List (String × α)`
with JS spread semantics: updating an existing key keeps its position,
a new key is appended at the end, matching JS object key enumeration
order for string keys.
-/

namespace FormStore

/-- Keys of an association list, in order. -/
def keys (l : List (String × α)) : List String := l.map Prod.fst

/-- A JS object never holds the same key twice. -/
abbrev NoDupKeys (l : List (String × α)) : Prop := (keys l).Nodup

/-- JS property read `l[k]`: the value at the first occurrence of `k`, if any. -/
def lookupKey : List (String × α) → String → Option α
  | [], _ => none
  | (k', v) :: rest, k => if k' = k then some v else lookupKey rest k

/-- JS `{...l, [k]: v}`: overwrite `k` in place if present, else append it. -/
def setKey : List (String × α) → String → α → List (String × α)
  | [], k, v => [(k, v)]
  | (k', v') :: rest, k, v =>
    if k' = k then (k, v) :: rest else (k', v') :: setKey rest k v

/-- JS rest-destructuring `const {[k]: _, ...rest} = l` / `delete l[k]`. -/
def removeKey : List (String × α) → String → List (String × α)
  | [], _ => []
  | (k', v) :: rest, k =>
    if k' = k then removeKey rest k else (k', v) :: removeKey rest k

/-- JS `{...a, ...b}`: fold the fields of `b` over `a`, left to right. -/
def spreadMerge (a b : List (String × α)) : List (String × α) :=
  b.foldl (fun acc kv => setKey acc kv.1 kv.2) a

/-- A runtime JS value stored in a form field: a primitive, an array, or a
nested object (`FormDataValue` in `useFormStore.tsx`). -/
inductive FormDataValue where
  | str : String → FormDataValue
  | num : Int → FormDataValue
  | boolean : Bool → FormDataValue
  | undef : FormDataValue
  | null : FormDataValue
  | arr : List FormDataValue → FormDataValue
  | obj : List (String × FormDataValue) → FormDataValue

/-- `FormData`: one form's record, field name to value. -/
abbrev FormData := List (String × FormDataValue)

/-- The whole zustand store state: the forms container and the errors
container (`FormState` in `useFormStore.tsx`). An error record is itself a
JS object, modelled with the same value type. -/
structure FormState where
  forms : List (String × FormData)
  errors : List (String × FormData)

/-- `updateForm(formKey, data)`: `forms[formKey] := {...forms[formKey], ...data}`.
When the key is absent, `state.forms[formKey]` is `undefined` and the spread
contributes nothing, so the record is built from `data` alone. -/
def updateForm (s : FormState) (formKey : String) (data : FormData) : FormState :=
  let merged := spreadMerge ((lookupKey s.forms formKey).getD []) data
  { s with forms := setKey s.forms formKey merged }

/-- `resetForm(formKey)`: `const {[formKey]: _, ...newForms} = state.forms`. -/
def resetForm (s : FormState) (formKey : String) : FormState :=
  { s with forms := removeKey s.forms formKey }

/-- `submitForm(formKey)`: logs `state.forms[formKey]` and returns `state`
unchanged. The logged record is the second component; the `console.log` has no
other effect. -/
def submitForm (s : FormState) (formKey : String) : FormState × Option FormData :=
  (s, lookupKey s.forms formKey)

/-- `setError(formKey, error)`: `errors := {...state.errors, [formKey]: error}`. -/
def setError (s : FormState) (formKey : String) (error : FormData) : FormState :=
  { s with errors := setKey s.errors formKey error }

/-- `clearError(formKey)`: `const {[formKey]: _, ...newErrors} = state.errors`. -/
def clearError (s : FormState) (formKey : String) : FormState :=
  { s with errors := removeKey s.errors formKey }

/-- JS `newArray[index] = value` on a copy of the array. A negative index
becomes an ordinary object property, invisible to the array's elements; an
index at or past the length extends the array, the holes reading back as
`undefined`; an in-range index overwrites one element. -/
def jsArraySet (a : List FormDataValue) (index : Int) (v : FormDataValue) :
    List FormDataValue :=
  if index < 0 then a
  else if index.toNat < a.length then a.set index.toNat v
  else a ++ List.replicate (index.toNat - a.length) FormDataValue.undef ++ [v]

/-- Recursion behind `jsArrayRemove`: keep the elements whose position,
counted from `i`, differs from `index`. -/
def jsFilterIdxFrom (index : Int) (i : Nat) : List FormDataValue → List FormDataValue
  | [] => []
  | x :: xs =>
    if (i : Int) = index then jsFilterIdxFrom index (i + 1) xs
    else x :: jsFilterIdxFrom index (i + 1) xs

/-- JS `array.filter((_, i) => i !== index)`. -/
def jsArrayRemove (a : List FormDataValue) (index : Int) : List FormDataValue :=
  jsFilterIdxFrom index 0 a

/-- `updateFormArray(formKey, fieldKey, index, value)`: guarded by the form
existing and the field currently holding an array; otherwise returns the
state unchanged. -/
def updateFormArray (s : FormState) (formKey fieldKey : String) (index : Int)
    (v : FormDataValue) : FormState :=
  match lookupKey s.forms formKey with
  | none => s
  | some currentForm =>
    match lookupKey currentForm fieldKey with
    | some (FormDataValue.arr currentArray) =>
      let newForm := setKey currentForm fieldKey
        (FormDataValue.arr (jsArraySet currentArray index v))
      { s with forms := setKey s.forms formKey newForm }
    | _ => s

/-- `addToFormArray(formKey, fieldKey, value)`: append `value` to the
array-valued field, under the same guards. -/
def addToFormArray (s : FormState) (formKey fieldKey : String)
    (v : FormDataValue) : FormState :=
  match lookupKey s.forms formKey with
  | none => s
  | some currentForm =>
    match lookupKey currentForm fieldKey with
    | some (FormDataValue.arr currentArray) =>
      let newForm := setKey currentForm fieldKey
        (FormDataValue.arr (currentArray ++ [v]))
      { s with forms := setKey s.forms formKey newForm }
    | _ => s

/-- `removeFromFormArray(formKey, fieldKey, index)`: drop the element at
`index` (shifting later elements down), under the same guards. -/
def removeFromFormArray (s : FormState) (formKey fieldKey : String)
    (index : Int) : FormState :=
  match lookupKey s.forms formKey with
  | none => s
  | some currentForm =>
    match lookupKey currentForm fieldKey with
    | some (FormDataValue.arr currentArray) =>
      let newForm := setKey currentForm fieldKey
        (FormDataValue.arr (jsArrayRemove currentArray index))
      { s with forms := setKey s.forms formKey newForm }
    | _ => s

/-- The `useForm` hook's read of one form: `formData: formData || ({} as T)`,
the record for the key or the empty record when absent. -/
def readForm (s : FormState) (formKey : String) : FormData :=
  (lookupKey s.forms formKey).getD []

/-- Holds when an array operation's guards pass: the form exists and the
addressed field currently holds an array. -/
def arrayOpApplicable (s : FormState) (formKey fieldKey : String) : Prop :=
  ∃ form a, lookupKey s.forms formKey = some form ∧
    lookupKey form fieldKey = some (FormDataValue.arr a)

mutual

/-- Modelled from the spec: "a record equal to the deep-merge of the prior
record and the update". Records merge key by key, recursively on record
values; any other value from the update overwrites. The mutually defined
`specDeepMergeFields` walks the update's fields. This definition follows the
spec's words, to be compared with `updateForm` from the source. -/
def specDeepMergeVal : FormDataValue → FormDataValue → FormDataValue
  | FormDataValue.obj a, FormDataValue.obj b =>
    FormDataValue.obj (specDeepMergeFields a b)
  | _, v => v

def specDeepMergeFields :
    List (String × FormDataValue) → List (String × FormDataValue) →
    List (String × FormDataValue)
  | a, [] => a
  | a, (k, v) :: rest =>
    match lookupKey a k with
    | some old => specDeepMergeFields (setKey a k (specDeepMergeVal old v)) rest
    | none => specDeepMergeFields (setKey a k v) rest

end

/-- A field value in the local-state hook: `string | number | undefined`. -/
inductive FieldValue where
  | str : String → FieldValue
  | num : Int → FieldValue
  | undef : FieldValue
deriving DecidableEq

/-- One field's slot in the local hook's state: `{value, error}`. -/
structure FieldState where
  value : FieldValue
  error : Option String
deriving DecidableEq

/-- The record of current field values, `string | number | undefined` each. -/
abbrev FormValues := List (String × FieldValue)

/-- The local hook's whole state: field name to `{value, error}`. -/
abbrev LocalFormState := List (String × FieldState)

/-- One entry of a `ZodError`: a field path and its message. The hook only
uses `err.path[0]`, the field name. -/
structure ZodIssue where
  path : String
  message : String
deriving DecidableEq

/-- `handleSubmit`'s reconstruction of the plain record from the per-field
state: `Object.entries(formState).reduce(... acc[key] = field.value ...)`. -/
def getFormValues (st : LocalFormState) : FormValues :=
  st.map (fun p => (p.1, p.2.value))

/-- One iteration of the `ZodError` loop:
`setFormState(prev => ({...prev, [field]: {...prev[field], error: err.message}}))`.
When the path is absent, `{...undefined, error}` yields a slot whose `value`
reads back as `undefined`. -/
def applyIssue (st : LocalFormState) (iss : ZodIssue) : LocalFormState :=
  let prev := (lookupKey st iss.path).getD { value := FieldValue.undef, error := none }
  setKey st iss.path { prev with error := some iss.message }

/-- `handleSubmit(onSubmit)` after `e.preventDefault()`: rebuild the record,
run `schema.parse` (the abstract validator `validate`); on success the state
is untouched and `onSubmit` receives the validated record (the `some`
component); on a `ZodError` every issue's field gets its message folded into
the state and `onSubmit` is never called (the `none` component). -/
def handleSubmit (validate : FormValues → Except (List ZodIssue) FormValues)
    (st : LocalFormState) : LocalFormState × Option FormValues :=
  match validate (getFormValues st) with
  | Except.ok validated => (st, some validated)
  | Except.error issues => (issues.foldl applyIssue st, none)

/-- Number of fields of an object value, `0` on anything else. Used to tell
two records apart without deciding full value equality. -/
def objFieldCount : FormDataValue → Nat
  | FormDataValue.obj fields => fields.length
  | _ => 0

/-- Length of the array held by `fieldKey` of form `formKey`, `0` when the
field is absent or not an array. -/
def arrLenAt (s : FormState) (formKey fieldKey : String) : Nat :=
  match lookupKey (readForm s formKey) fieldKey with
  | some (FormDataValue.arr a) => a.length
  | _ => 0

/-- Sample hobby record `{name: "chess"}`. -/
def hobbyChess : FormDataValue := FormDataValue.obj [("name", FormDataValue.str "chess")]

/-- Sample hobby record `{name: "ski"}`. -/
def hobbySki : FormDataValue := FormDataValue.obj [("name", FormDataValue.str "ski")]

/-- Sample form record with an array field and a scalar field. -/
def sampleForm : FormData :=
  [("hobbies", FormDataValue.arr [hobbyChess]), ("age", FormDataValue.num 30)]

/-- Sample store with two forms and one error entry. -/
def sampleState : FormState :=
  { forms := [("f1", sampleForm), ("f2", [("x", FormDataValue.num 1)])],
    errors := [("f1", [("age", FormDataValue.str "too low")])] }

/-- Prior record holding a nested record `a` with two leaves. -/
def nestedPrior : FormData :=
  [("a", FormDataValue.obj [("x", FormDataValue.num 1), ("y", FormDataValue.num 2)]),
   ("b", FormDataValue.num 7)]

/-- Update mentioning only leaf `x` of the nested record `a`. -/
def nestedUpdate : FormData := [("a", FormDataValue.obj [("x", FormDataValue.num 9)])]

/-- Store holding `nestedPrior` under key `f1`. -/
def nestedState : FormState := { forms := [("f1", nestedPrior)], errors := [] }

/-- Store whose form `f` has a one-element array field `xs`. -/
def shortArrayState : FormState :=
  { forms := [("f", [("xs", FormDataValue.arr [FormDataValue.null])])], errors := [] }

/-- Sample local hook state: defaults `{name: "Alice", age: 0}`, no errors. -/
def st0 : LocalFormState :=
  [("name", { value := FieldValue.str "Alice", error := none }),
   ("age", { value := FieldValue.num 0, error := none })]

/-- Sample `ZodError` issue list for a schema requiring `age > 0`. -/
def issues0 : List ZodIssue := [{ path := "age", message := "Age must be positive" }]

/-- Sample validator: rejects with `issues0` unless `age` is a positive
number. -/
def validate0 : FormValues → Except (List ZodIssue) FormValues :=
  fun vals =>
    match lookupKey vals "age" with
    | some (FieldValue.num n) =>
      if n ≤ 0 then Except.error issues0 else Except.ok vals
    | _ => Except.error issues0

theorem keys_cons (p : String × α) (l : List (String × α)) :
    keys (p :: l) = p.1 :: keys l := rfl

theorem lookupKey_setKey_self (l : List (String × α)) (k : String) (v : α) :
    lookupKey (setKey l k v) k = some v := by
  induction l with
  | nil => simp [setKey, lookupKey]
  | cons p rest ih =>
    obtain ⟨k', v'⟩ := p
    by_cases h : k' = k
    · simp [setKey, h, lookupKey]
    · simp [setKey, h, lookupKey, ih]

theorem lookupKey_setKey_ne (l : List (String × α)) (k j : String) (v : α)
    (h : j ≠ k) : lookupKey (setKey l k v) j = lookupKey l j := by
  induction l with
  | nil => simp [setKey, lookupKey, Ne.symm h]
  | cons p rest ih =>
    obtain ⟨k', v'⟩ := p
    by_cases hk : k' = k
    · simp [setKey, hk, lookupKey, Ne.symm h]
    · simp [setKey, hk, lookupKey, ih]

theorem setKey_setKey (l : List (String × α)) (k : String) (v w : α) :
    setKey (setKey l k v) k w = setKey l k w := by
  induction l with
  | nil => simp [setKey]
  | cons p rest ih =>
    obtain ⟨k', v'⟩ := p
    by_cases h : k' = k
    · simp [setKey, h]
    · simp [setKey, h, ih]

theorem setKey_eq_self (l : List (String × α)) (k : String) (v : α)
    (h : lookupKey l k = some v) : setKey l k v = l := by
  induction l with
  | nil => simp [lookupKey] at h
  | cons p rest ih =>
    obtain ⟨k', v'⟩ := p
    by_cases hk : k' = k
    · subst hk
      simp only [lookupKey, if_pos] at h
      obtain rfl := Option.some.inj h
      simp [setKey]
    · simp only [lookupKey, if_neg hk] at h
      simp [setKey, hk, ih h]

theorem keys_setKey_of_mem (l : List (String × α)) (k : String) (v : α)
    (h : k ∈ keys l) : keys (setKey l k v) = keys l := by
  induction l with
  | nil => simp [keys] at h
  | cons p rest ih =>
    obtain ⟨k', v'⟩ := p
    by_cases hk : k' = k
    · simp [setKey, hk, keys_cons]
    · have hmem : k ∈ keys rest := by
        rcases List.mem_cons.mp (keys_cons _ _ ▸ h) with h1 | h2
        · exact absurd h1.symm hk
        · exact h2
      simp only [setKey, if_neg hk, keys_cons, ih hmem]

theorem setKey_of_not_mem (l : List (String × α)) (k : String) (v : α)
    (h : k ∉ keys l) : setKey l k v = l ++ [(k, v)] := by
  induction l with
  | nil => simp [setKey]
  | cons p rest ih =>
    obtain ⟨k', v'⟩ := p
    rw [keys_cons] at h
    have hk : k' ≠ k := fun hh => h (hh ▸ List.mem_cons_self _ _)
    have hr : k ∉ keys rest := fun hh => h (List.mem_cons_of_mem _ hh)
    simp [setKey, hk, ih hr]

theorem lookupKey_eq_none_of_not_mem (l : List (String × α)) (k : String)
    (h : k ∉ keys l) : lookupKey l k = none := by
  induction l with
  | nil => rfl
  | cons p rest ih =>
    obtain ⟨k', v'⟩ := p
    rw [keys_cons] at h
    have hk : k' ≠ k := fun hh => h (hh ▸ List.mem_cons_self _ _)
    have hr : k ∉ keys rest := fun hh => h (List.mem_cons_of_mem _ hh)
    simp [lookupKey, hk, ih hr]

theorem lookupKey_isSome_of_mem (l : List (String × α)) (k : String)
    (h : k ∈ keys l) : ∃ v, lookupKey l k = some v := by
  induction l with
  | nil => simp [keys] at h
  | cons p rest ih =>
    obtain ⟨k', v'⟩ := p
    by_cases hk : k' = k
    · exact ⟨v', by simp [lookupKey, hk]⟩
    · have hmem : k ∈ keys rest := by
        rcases List.mem_cons.mp (keys_cons _ _ ▸ h) with h1 | h2
        · exact absurd h1.symm hk
        · exact h2
      obtain ⟨v, hv⟩ := ih hmem
      exact ⟨v, by simp [lookupKey, hk, hv]⟩

theorem lookupKey_removeKey_self (l : List (String × α)) (k : String) :
    lookupKey (removeKey l k) k = none := by
  induction l with
  | nil => rfl
  | cons p rest ih =>
    obtain ⟨k', v'⟩ := p
    by_cases hk : k' = k
    · simp [removeKey, hk, ih]
    · simp [removeKey, hk, lookupKey, ih]

theorem lookupKey_removeKey_ne (l : List (String × α)) (k j : String)
    (h : j ≠ k) : lookupKey (removeKey l k) j = lookupKey l j := by
  induction l with
  | nil => rfl
  | cons p rest ih =>
    obtain ⟨k', v'⟩ := p
    by_cases hk : k' = k
    · simp [removeKey, hk, lookupKey, Ne.symm h, ih]
    · simp [removeKey, hk, lookupKey, ih]

theorem spreadMerge_cons (a : List (String × α)) (k : String) (v : α)
    (b : List (String × α)) :
    spreadMerge a ((k, v) :: b) = spreadMerge (setKey a k v) b := rfl

theorem lookupKey_spreadMerge_of_not_mem (b a : List (String × α)) (j : String)
    (h : j ∉ keys b) : lookupKey (spreadMerge a b) j = lookupKey a j := by
  induction b generalizing a with
  | nil => rfl
  | cons p rest ih =>
    obtain ⟨k, v⟩ := p
    rw [keys_cons] at h
    have hk : j ≠ k := fun hh => h (hh ▸ List.mem_cons_self _ _)
    have hr : j ∉ keys rest := fun hh => h (List.mem_cons_of_mem _ hh)
    rw [spreadMerge_cons, ih _ hr, lookupKey_setKey_ne _ _ _ _ hk]

theorem lookupKey_spreadMerge_of_mem (b a : List (String × α)) (j : String)
    (hnd : NoDupKeys b) (h : j ∈ keys b) :
    lookupKey (spreadMerge a b) j = lookupKey b j := by
  induction b generalizing a with
  | nil => simp [keys] at h
  | cons p rest ih =>
    obtain ⟨k, v⟩ := p
    rw [keys_cons] at h
    have hnd' : NoDupKeys rest := (List.nodup_cons.mp hnd).2
    have hknr : k ∉ keys rest := (List.nodup_cons.mp hnd).1
    by_cases hj : j ∈ keys rest
    · have hjk : j ≠ k := fun hh => hknr (hh ▸ hj)
      rw [spreadMerge_cons, ih _ hnd' hj, lookupKey, if_neg (Ne.symm hjk)]
    · have hjk : j = k := by
        rcases List.mem_cons.mp h with h1 | h2
        · exact h1
        · exact absurd h2 hj
      subst hjk
      rw [spreadMerge_cons, lookupKey_spreadMerge_of_not_mem _ _ _ hj,
        lookupKey_setKey_self, lookupKey, if_pos rfl]

theorem spreadMerge_eq_append (b a : List (String × α))
    (hd : ∀ x ∈ keys b, x ∉ keys a) (hnd : NoDupKeys b) :
    spreadMerge a b = a ++ b := by
  induction b generalizing a with
  | nil => simp [spreadMerge]
  | cons p rest ih =>
    obtain ⟨k, v⟩ := p
    have hka : k ∉ keys a := hd k (keys_cons _ _ ▸ List.mem_cons_self _ _)
    have hnd' : NoDupKeys rest := (List.nodup_cons.mp hnd).2
    have hknr : k ∉ keys rest := (List.nodup_cons.mp hnd).1
    rw [spreadMerge_cons, setKey_of_not_mem _ _ _ hka, ih _ ?_ hnd']
    · simp
    · intro x hx
      have hxa : x ∉ keys a :=
        hd x (keys_cons _ _ ▸ List.mem_cons_of_mem _ hx)
      have hxk : x ≠ k := fun hh => hknr (hh ▸ hx)
      intro hmem
      rw [show keys (a ++ [(k, v)]) = keys a ++ [k] from List.map_append _ _ _]
        at hmem
      rcases List.mem_append.mp hmem with h1 | h2
      · exact hxa h1
      · exact hxk (List.mem_singleton.mp h2)

theorem spreadMerge_nil_left (b : List (String × α)) (hnd : NoDupKeys b) :
    spreadMerge [] b = b := by
  rw [spreadMerge_eq_append b [] (by intro x _; simp [keys]) hnd]
  rfl

theorem jsFilterIdxFrom_id (xs : List FormDataValue) (index : Int) (i : Nat)
    (h : index < (i : Int) ∨ (i : Int) + xs.length ≤ index) :
    jsFilterIdxFrom index i xs = xs := by
  induction xs generalizing i with
  | nil => rfl
  | cons x rest ih =>
    have hne : (i : Int) ≠ index := by
      rcases h with h1 | h2
      · omega
      · simp only [List.length_cons] at h2
        omega
    have hnext : index < ((i + 1 : Nat) : Int) ∨
        ((i + 1 : Nat) : Int) + rest.length ≤ index := by
      rcases h with h1 | h2
      · left; omega
      · right
        simp only [List.length_cons] at h2
        push_cast
        push_cast at h2
        omega
    simp [jsFilterIdxFrom, hne, ih _ hnext]

theorem jsFilterIdxFrom_append_last (xs : List FormDataValue)
    (v : FormDataValue) (i : Nat) :
    jsFilterIdxFrom ((i : Int) + xs.length) i (xs ++ [v]) = xs := by
  induction xs generalizing i with
  | nil => simp [jsFilterIdxFrom]
  | cons x rest ih =>
    have hne : (i : Int) ≠ (i : Int) + (x :: rest).length := by
      simp only [List.length_cons]
      omega
    have hrw : (i : Int) + (x :: rest).length =
        ((i + 1 : Nat) : Int) + rest.length := by
      simp only [List.length_cons]
      push_cast
      omega
    simp only [List.cons_append, jsFilterIdxFrom, if_neg hne, List.append_eq]
    rw [hrw, ih]

theorem jsArrayRemove_append_length (a : List FormDataValue)
    (v : FormDataValue) :
    jsArrayRemove (a ++ [v]) (a.length : Int) = a := by
  have := jsFilterIdxFrom_append_last a v 0
  simpa [jsArrayRemove] using this

theorem jsArrayRemove_out_of_range (a : List FormDataValue) (index : Int)
    (h : index < 0 ∨ (a.length : Int) ≤ index) :
    jsArrayRemove a index = a := by
  apply jsFilterIdxFrom_id
  rcases h with h1 | h2
  · left; omega
  · right; simpa using h2

theorem jsArraySet_in_range (a : List FormDataValue) (index : Int)
    (v : FormDataValue) (h0 : 0 ≤ index) (hlt : index.toNat < a.length) :
    jsArraySet a index v = a.set index.toNat v := by
  rw [jsArraySet, if_neg (by omega), if_pos hlt]

theorem lookupKey_applyIssue_ne (st : LocalFormState) (iss : ZodIssue)
    (j : String) (h : j ≠ iss.path) :
    lookupKey (applyIssue st iss) j = lookupKey st j :=
  lookupKey_setKey_ne _ _ _ _ h

theorem keys_applyIssue_of_mem (st : LocalFormState) (iss : ZodIssue)
    (h : iss.path ∈ keys st) : keys (applyIssue st iss) = keys st :=
  keys_setKey_of_mem _ _ _ h

theorem value_applyIssue (st : LocalFormState) (iss : ZodIssue)
    (h : iss.path ∈ keys st) (j : String) :
    (lookupKey (applyIssue st iss) j).map FieldState.value =
      (lookupKey st j).map FieldState.value := by
  by_cases hj : j = iss.path
  · subst hj
    obtain ⟨fs, hfs⟩ := lookupKey_isSome_of_mem st iss.path h
    simp only [applyIssue, hfs, Option.getD_some]
    rw [lookupKey_setKey_self]
    rfl
  · rw [lookupKey_applyIssue_ne _ _ _ hj]

theorem keys_foldl_applyIssue (issues : List ZodIssue) (st : LocalFormState)
    (h : ∀ iss ∈ issues, iss.path ∈ keys st) :
    keys (issues.foldl applyIssue st) = keys st := by
  induction issues generalizing st with
  | nil => rfl
  | cons iss rest ih =>
    have hhead : iss.path ∈ keys st := h iss (List.mem_cons_self _ _)
    rw [List.foldl_cons, ih _ ?_, keys_applyIssue_of_mem _ _ hhead]
    intro i hi
    rw [keys_applyIssue_of_mem _ _ hhead]
    exact h i (List.mem_cons_of_mem _ hi)

theorem values_foldl_applyIssue (issues : List ZodIssue) (st : LocalFormState)
    (h : ∀ iss ∈ issues, iss.path ∈ keys st) (j : String) :
    (lookupKey (issues.foldl applyIssue st) j).map FieldState.value =
      (lookupKey st j).map FieldState.value := by
  induction issues generalizing st with
  | nil => rfl
  | cons iss rest ih =>
    have hhead : iss.path ∈ keys st := h iss (List.mem_cons_self _ _)
    rw [List.foldl_cons, ih _ ?_, value_applyIssue _ _ hhead]
    intro i hi
    rw [keys_applyIssue_of_mem _ _ hhead]
    exact h i (List.mem_cons_of_mem _ hi)

theorem lookupKey_foldl_applyIssue_not_mem (issues : List ZodIssue)
    (st : LocalFormState) (j : String) (h : j ∉ issues.map ZodIssue.path) :
    lookupKey (issues.foldl applyIssue st) j = lookupKey st j := by
  induction issues generalizing st with
  | nil => rfl
  | cons iss rest ih =>
    rw [List.map_cons] at h
    have h1 : j ≠ iss.path := fun hh => h (hh ▸ List.mem_cons_self _ _)
    have h2 : j ∉ rest.map ZodIssue.path := fun hh => h (List.mem_cons_of_mem _ hh)
    rw [List.foldl_cons, ih _ h2, lookupKey_applyIssue_ne _ _ _ h1]

theorem error_foldl_applyIssue_mem (issues : List ZodIssue)
    (st : LocalFormState) (j : String) (h : j ∈ issues.map ZodIssue.path) :
    ∃ iss ∈ issues, iss.path = j ∧
      (lookupKey (issues.foldl applyIssue st) j).map FieldState.error =
        some (some iss.message) := by
  induction issues generalizing st with
  | nil => simp at h
  | cons iss rest ih =>
    by_cases hj : j ∈ rest.map ZodIssue.path
    · obtain ⟨i2, hmem, hpath, heq⟩ := ih (applyIssue st iss) hj
      exact ⟨i2, List.mem_cons_of_mem _ hmem, hpath,
        by rw [List.foldl_cons]; exact heq⟩
    · have hpath : iss.path = j := by
        rw [List.map_cons] at h
        rcases List.mem_cons.mp h with h1 | h2
        · exact h1.symm
        · exact absurd h2 hj
      refine ⟨iss, List.mem_cons_self _ _, hpath, ?_⟩
      rw [List.foldl_cons, lookupKey_foldl_applyIssue_not_mem rest _ _ hj]
      subst hpath
      simp only [applyIssue]
      rw [lookupKey_setKey_self]
      rfl

theorem updateFormArray_applicable (s : FormState) (fk fd : String)
    (idx : Int) (v : FormDataValue) (form : FormData)
    (a : List FormDataValue)
    (hform : lookupKey s.forms fk = some form)
    (hfield : lookupKey form fd = some (FormDataValue.arr a)) :
    updateFormArray s fk fd idx v =
      { s with
        forms := setKey s.forms fk
          (setKey form fd (FormDataValue.arr (jsArraySet a idx v))) } := by
  unfold updateFormArray
  simp only [hform, hfield]

theorem addToFormArray_applicable (s : FormState) (fk fd : String)
    (v : FormDataValue) (form : FormData) (a : List FormDataValue)
    (hform : lookupKey s.forms fk = some form)
    (hfield : lookupKey form fd = some (FormDataValue.arr a)) :
    addToFormArray s fk fd v =
      { s with
        forms := setKey s.forms fk
          (setKey form fd (FormDataValue.arr (a ++ [v]))) } := by
  unfold addToFormArray
  simp only [hform, hfield]

theorem removeFromFormArray_applicable (s : FormState) (fk fd : String)
    (idx : Int) (form : FormData) (a : List FormDataValue)
    (hform : lookupKey s.forms fk = some form)
    (hfield : lookupKey form fd = some (FormDataValue.arr a)) :
    removeFromFormArray s fk fd idx =
      { s with
        forms := setKey s.forms fk
          (setKey form fd (FormDataValue.arr (jsArrayRemove a idx))) } := by
  unfold removeFromFormArray
  simp only [hform, hfield]

/-- Claim C8: for every store state and every form key, `submitForm` leaves
the entire store state — both the forms container and the errors container —
exactly as it was: it performs no validation and never implicitly clears or
otherwise modifies the form. -/
theorem submitForm_leaves_state_unchanged (s : FormState) (formKey : String) :
    (submitForm s formKey).1 = s ∧ (submitForm s formKey).1.forms = s.forms ∧
      (submitForm s formKey).1.errors = s.errors :=
  ⟨rfl, rfl, rfl⟩

/-- Claim C9: every store operation touches at most one of the two
containers: `updateForm`, `resetForm`, `updateFormArray`, `addToFormArray`
and `removeFromFormArray` leave the errors container unchanged, and
`setError` and `clearError` leave the forms container unchanged. -/
theorem ops_touch_one_container (s : FormState) (k fk fd : String)
    (d e : FormData) (idx : Int) (v : FormDataValue) :
    (updateForm s k d).errors = s.errors ∧
    (resetForm s k).errors = s.errors ∧
    (updateFormArray s fk fd idx v).errors = s.errors ∧
    (addToFormArray s fk fd v).errors = s.errors ∧
    (removeFromFormArray s fk fd idx).errors = s.errors ∧
    (setError s k e).forms = s.forms ∧
    (clearError s k).forms = s.forms := by
  refine ⟨rfl, rfl, ?_, ?_, ?_, rfl, rfl⟩
  · cases hf : lookupKey s.forms fk with
    | none => simp only [updateFormArray, hf]
    | some form =>
      cases hv : lookupKey form fd with
      | none => simp only [updateFormArray, hf, hv]
      | some val => cases val <;> simp only [updateFormArray, hf, hv]
  · cases hf : lookupKey s.forms fk with
    | none => simp only [addToFormArray, hf]
    | some form =>
      cases hv : lookupKey form fd with
      | none => simp only [addToFormArray, hf, hv]
      | some val => cases val <;> simp only [addToFormArray, hf, hv]
  · cases hf : lookupKey s.forms fk with
    | none => simp only [removeFromFormArray, hf]
    | some form =>
      cases hv : lookupKey form fd with
      | none => simp only [removeFromFormArray, hf, hv]
      | some val => cases val <;> simp only [removeFromFormArray, hf, hv]

/-- Claim C7: `resetForm(k)` removes `k`'s data entry, so a subsequent read
of form `k` through the per-form hook returns the empty record, while the
data entries of every other form identifier are unchanged. -/
theorem resetForm_clears_only_target (s : FormState) (k : String) :
    readForm (resetForm s k) k = [] ∧
    (∀ k', k' ≠ k → lookupKey (resetForm s k).forms k' = lookupKey s.forms k') := by
  constructor
  · show (lookupKey (removeKey s.forms k) k).getD [] = []
    rw [lookupKey_removeKey_self]
    rfl
  · intro k' h
    exact lookupKey_removeKey_ne _ _ _ h

/-- Witness for claim C7 at a concrete store: resetting `f1` empties its
read while `f2` keeps its entry. -/
theorem resetForm_clears_only_target_witness :
    readForm (resetForm sampleState "f1") "f1" = [] ∧
    lookupKey (resetForm sampleState "f1").forms "f2" =
      lookupKey sampleState.forms "f2" :=
  ⟨(resetForm_clears_only_target sampleState "f1").1,
    (resetForm_clears_only_target sampleState "f1").2 "f2" (by decide)⟩

/-- Claim C3: when the addressed form key is absent or the addressed field's
current value is not an array, each of `updateFormArray`, `addToFormArray`
and `removeFromFormArray` returns the entire store state identical to the
state before, surfacing no error. -/
theorem arrayOps_noop_when_inapplicable (s : FormState) (fk fd : String)
    (idx : Int) (v : FormDataValue) (h : ¬ arrayOpApplicable s fk fd) :
    updateFormArray s fk fd idx v = s ∧ addToFormArray s fk fd v = s ∧
      removeFromFormArray s fk fd idx = s := by
  have hcases : lookupKey s.forms fk = none ∨
      ∃ form, lookupKey s.forms fk = some form ∧
        ∀ a, lookupKey form fd ≠ some (FormDataValue.arr a) := by
    cases hf : lookupKey s.forms fk with
    | none => exact Or.inl rfl
    | some form =>
      refine Or.inr ⟨form, rfl, ?_⟩
      intro a ha
      exact h ⟨form, a, hf, ha⟩
  refine ⟨?_, ?_, ?_⟩
  · rcases hcases with hf | ⟨form, hf, hna⟩
    · simp only [updateFormArray, hf]
    · cases hv : lookupKey form fd with
      | none => simp only [updateFormArray, hf, hv]
      | some val =>
        cases val
        case arr a => exact absurd hv (hna a)
        all_goals simp only [updateFormArray, hf, hv]
  · rcases hcases with hf | ⟨form, hf, hna⟩
    · simp only [addToFormArray, hf]
    · cases hv : lookupKey form fd with
      | none => simp only [addToFormArray, hf, hv]
      | some val =>
        cases val
        case arr a => exact absurd hv (hna a)
        all_goals simp only [addToFormArray, hf, hv]
  · rcases hcases with hf | ⟨form, hf, hna⟩
    · simp only [removeFromFormArray, hf]
    · cases hv : lookupKey form fd with
      | none => simp only [removeFromFormArray, hf, hv]
      | some val =>
        cases val
        case arr a => exact absurd hv (hna a)
        all_goals simp only [removeFromFormArray, hf, hv]

/-- Witness for claim C3 at a concrete store: form `f2` exists but its field
`x` is a number, and form `nope` is absent; all three operations leave the
state untouched. -/
theorem arrayOps_noop_when_inapplicable_witness :
    updateFormArray sampleState "f2" "x" 0 FormDataValue.null = sampleState ∧
    addToFormArray sampleState "f2" "x" FormDataValue.null = sampleState ∧
    removeFromFormArray sampleState "nope" "x" 0 = sampleState := by
  have hx : ¬ arrayOpApplicable sampleState "f2" "x" := by
    rintro ⟨form, a, hform, hfield⟩
    have h1 : lookupKey sampleState.forms "f2" =
        some [("x", FormDataValue.num 1)] := rfl
    rw [h1] at hform
    obtain rfl := Option.some.inj hform
    have h2 : lookupKey [("x", FormDataValue.num 1)] "x" =
        some (FormDataValue.num 1) := rfl
    rw [h2] at hfield
    injection hfield with h3
    exact FormDataValue.noConfusion h3
  have hnope : ¬ arrayOpApplicable sampleState "nope" "x" := by
    rintro ⟨form, a, hform, _⟩
    have h1 : lookupKey sampleState.forms "nope" = none := rfl
    rw [h1] at hform
    exact Option.noConfusion hform
  exact ⟨(arrayOps_noop_when_inapplicable sampleState "f2" "x" 0
      FormDataValue.null hx).1,
    (arrayOps_noop_when_inapplicable sampleState "f2" "x" 0
      FormDataValue.null hx).2.1,
    (arrayOps_noop_when_inapplicable sampleState "nope" "x" 0
      FormDataValue.null hnope).2.2⟩

/-- Claim C10: when form `formKey` exists and field `fieldKey` holds an array
of length `n`, `removeFromFormArray` with an index outside `0..n-1` (negative
or at least `n`) leaves the entire store state unchanged. -/
theorem removeFromFormArray_out_of_range_noop (s : FormState) (fk fd : String)
    (idx : Int) (form : FormData) (a : List FormDataValue)
    (hform : lookupKey s.forms fk = some form)
    (hfield : lookupKey form fd = some (FormDataValue.arr a))
    (hidx : idx < 0 ∨ (a.length : Int) ≤ idx) :
    removeFromFormArray s fk fd idx = s := by
  rw [removeFromFormArray_applicable s fk fd idx form a hform hfield,
    jsArrayRemove_out_of_range a idx hidx, setKey_eq_self form fd _ hfield,
    setKey_eq_self s.forms fk form hform]

/-- Witness for claim C10: removing at index `5` (and at `-1`) from the
one-element `hobbies` array of `f1` leaves the concrete store unchanged. -/
theorem removeFromFormArray_out_of_range_noop_witness :
    removeFromFormArray sampleState "f1" "hobbies" 5 = sampleState ∧
    removeFromFormArray sampleState "f1" "hobbies" (-1) = sampleState :=
  ⟨removeFromFormArray_out_of_range_noop sampleState "f1" "hobbies" 5
      sampleForm [hobbyChess] rfl rfl (by decide),
    removeFromFormArray_out_of_range_noop sampleState "f1" "hobbies" (-1)
      sampleForm [hobbyChess] rfl rfl (by decide)⟩

/-- Claim C4: `updateForm(formKey, partialData)` shallow-merges the update
into the existing record, creating the entry from the update alone when the
key is absent, and preserving every top-level field of the prior record not
present in the update. -/
theorem updateForm_shallow_merge (s : FormState) (k : String) (d : FormData) :
    lookupKey (updateForm s k d).forms k =
      some (spreadMerge ((lookupKey s.forms k).getD []) d) ∧
    (lookupKey s.forms k = none → NoDupKeys d →
      lookupKey (updateForm s k d).forms k = some d) ∧
    (∀ prior, lookupKey s.forms k = some prior → ∀ f, f ∉ keys d →
      lookupKey ((lookupKey (updateForm s k d).forms k).getD []) f =
        lookupKey prior f) := by
  refine ⟨lookupKey_setKey_self _ _ _, ?_, ?_⟩
  · intro habs hnd
    show lookupKey
      (setKey s.forms k (spreadMerge ((lookupKey s.forms k).getD []) d)) k =
      some d
    rw [habs, Option.getD_none, spreadMerge_nil_left d hnd,
      lookupKey_setKey_self]
  · intro prior hp f hf
    show lookupKey
      ((lookupKey
        (setKey s.forms k (spreadMerge ((lookupKey s.forms k).getD []) d))
        k).getD []) f = lookupKey prior f
    rw [lookupKey_setKey_self, Option.getD_some, hp, Option.getD_some,
      lookupKey_spreadMerge_of_not_mem d prior f hf]

/-- Witness for claim C4: updating absent form `g` creates its record from
the update alone; updating `f1` preserves its `age` field, absent from the
update. -/
theorem updateForm_shallow_merge_witness :
    lookupKey (updateForm sampleState "g" [("n", FormDataValue.num 5)]).forms
      "g" = some [("n", FormDataValue.num 5)] ∧
    lookupKey
      ((lookupKey
        (updateForm sampleState "f1" [("name", FormDataValue.str "Kim")]).forms
        "f1").getD []) "age" = lookupKey sampleForm "age" :=
  ⟨(updateForm_shallow_merge sampleState "g"
      [("n", FormDataValue.num 5)]).2.1 rfl (by decide),
    (updateForm_shallow_merge sampleState "f1"
      [("name", FormDataValue.str "Kim")]).2.2 sampleForm rfl "age" (by decide)⟩

/-- Claim C1 counterexample: with prior record `{a: {x: 1, y: 2}, b: 7}` and
update `{a: {x: 9}}`, reading after `updateForm` yields `{a: {x: 9}, b: 7}`,
not the deep merge `{a: {x: 9, y: 2}, b: 7}`: the leaf `y` inside the
partially-mentioned nested record is lost. -/
theorem updateForm_read_not_deep_merge :
    readForm (updateForm nestedState "f1" nestedUpdate) "f1" ≠
      specDeepMergeFields nestedPrior nestedUpdate := by
  intro h
  have h1 : (lookupKey (readForm (updateForm nestedState "f1" nestedUpdate)
      "f1") "a").map objFieldCount = some 1 := rfl
  have h2 : (lookupKey (specDeepMergeFields nestedPrior nestedUpdate)
      "a").map objFieldCount = some 2 := by
    simp [specDeepMergeFields, specDeepMergeVal, nestedPrior, nestedUpdate,
      lookupKey, setKey, objFieldCount]
  rw [h] at h1
  rw [h1] at h2
  exact absurd (Option.some.inj h2) (by decide)

/-- Claim C1 (amended): `updateForm` followed by a read returns the shallow
merge of the prior record and the update: every top-level field not
mentioned in the update is unchanged, and every field mentioned in the
update takes exactly the update's value — a nested record mentioned only
partially is replaced wholesale, not deep-merged. -/
theorem updateForm_read_is_shallow_merge (s : FormState) (k : String)
    (d : FormData) :
    readForm (updateForm s k d) k = spreadMerge (readForm s k) d ∧
    (∀ f, f ∉ keys d →
      lookupKey (readForm (updateForm s k d) k) f =
        lookupKey (readForm s k) f) ∧
    (NoDupKeys d → ∀ f, f ∈ keys d →
      lookupKey (readForm (updateForm s k d) k) f = lookupKey d f) := by
  have hread : readForm (updateForm s k d) k = spreadMerge (readForm s k) d := by
    show (lookupKey
      (setKey s.forms k (spreadMerge ((lookupKey s.forms k).getD []) d))
      k).getD [] = spreadMerge (readForm s k) d
    rw [lookupKey_setKey_self, Option.getD_some]
    rfl
  refine ⟨hread, ?_, ?_⟩
  · intro f hf
    rw [hread, lookupKey_spreadMerge_of_not_mem d (readForm s k) f hf]
  · intro hnd f hf
    rw [hread, lookupKey_spreadMerge_of_mem d (readForm s k) f hnd hf]

/-- Witness for claim C1 (amended) at the nested-record store: field `b`
(not mentioned) is preserved and field `a` (mentioned) takes exactly the
update's value. -/
theorem updateForm_read_is_shallow_merge_witness :
    readForm (updateForm nestedState "f1" nestedUpdate) "f1" =
      spreadMerge (readForm nestedState "f1") nestedUpdate ∧
    lookupKey (readForm (updateForm nestedState "f1" nestedUpdate) "f1") "b" =
      lookupKey (readForm nestedState "f1") "b" ∧
    lookupKey (readForm (updateForm nestedState "f1" nestedUpdate) "f1") "a" =
      lookupKey nestedUpdate "a" :=
  ⟨(updateForm_read_is_shallow_merge nestedState "f1" nestedUpdate).1,
    (updateForm_read_is_shallow_merge nestedState "f1" nestedUpdate).2.1 "b"
      (by decide),
    (updateForm_read_is_shallow_merge nestedState "f1" nestedUpdate).2.2
      (by decide) "a" (by decide)⟩

/-- Claim C5 counterexample: the claim quantifies over every index, but JS
assignment past the end extends the array: on form `f` whose field `xs`
holds `[null]` (length 1), `updateFormArray` at index `1` produces an array
of length `2`, so the array's length is not left unchanged. -/
theorem updateFormArray_out_of_range_changes_length :
    arrLenAt (updateFormArray shortArrayState "f" "xs" 1 FormDataValue.null)
        "f" "xs" ≠ arrLenAt shortArrayState "f" "xs" ∧
    arrLenAt (updateFormArray shortArrayState "f" "xs" 1 FormDataValue.null)
        "f" "xs" = 2 ∧
    arrLenAt shortArrayState "f" "xs" = 1 := by
  refine ⟨?_, rfl, rfl⟩
  intro h
  have h1 : arrLenAt (updateFormArray shortArrayState "f" "xs" 1
      FormDataValue.null) "f" "xs" = 2 := rfl
  have h2 : arrLenAt shortArrayState "f" "xs" = 1 := rfl
  rw [h1, h2] at h
  exact absurd h (by decide)

/-- Claim C5 (amended): when form `formKey` exists, its field `fieldKey` is
an array, and the index is in range (`0 ≤ index < length`), `updateFormArray`
overwrites exactly the element at that position, leaving the array's length,
every other element, every other field of the form, every other form, and
the errors container unchanged. -/
theorem updateFormArray_in_range (s : FormState) (fk fd : String)
    (idx : Int) (v : FormDataValue) (form : FormData) (a : List FormDataValue)
    (hform : lookupKey s.forms fk = some form)
    (hfield : lookupKey form fd = some (FormDataValue.arr a))
    (h0 : 0 ≤ idx) (hlt : idx.toNat < a.length) :
    lookupKey (updateFormArray s fk fd idx v).forms fk =
      some (setKey form fd (FormDataValue.arr (a.set idx.toNat v))) ∧
    lookupKey (setKey form fd (FormDataValue.arr (a.set idx.toNat v))) fd =
      some (FormDataValue.arr (a.set idx.toNat v)) ∧
    (a.set idx.toNat v).length = a.length ∧
    (a.set idx.toNat v)[idx.toNat]? = some v ∧
    (∀ j : Nat, j ≠ idx.toNat → (a.set idx.toNat v)[j]? = a[j]?) ∧
    (∀ g, g ≠ fd →
      lookupKey (setKey form fd (FormDataValue.arr (a.set idx.toNat v))) g =
        lookupKey form g) ∧
    (∀ k', k' ≠ fk →
      lookupKey (updateFormArray s fk fd idx v).forms k' =
        lookupKey s.forms k') ∧
    (updateFormArray s fk fd idx v).errors = s.errors := by
  have happ := updateFormArray_applicable s fk fd idx v form a hform hfield
  rw [jsArraySet_in_range a idx v h0 hlt] at happ
  rw [happ]
  refine ⟨lookupKey_setKey_self _ _ _, lookupKey_setKey_self _ _ _,
    List.length_set a idx.toNat v, List.getElem?_set_eq_of_lt v hlt,
    ?_, ?_, ?_, rfl⟩
  · intro j hj
    exact List.getElem?_set_ne (Ne.symm hj)
  · intro g hg
    exact lookupKey_setKey_ne _ _ _ _ hg
  · intro k' hk
    exact lookupKey_setKey_ne _ _ _ _ hk

/-- Witness for claim C5 (amended): overwriting index `0` of `f1`'s
one-element `hobbies` array with `{name: "ski"}` keeps length `1`, keeps the
`age` field, keeps form `f2`, and keeps the errors container. -/
theorem updateFormArray_in_range_witness :
    lookupKey (updateFormArray sampleState "f1" "hobbies" 0 hobbySki).forms
      "f1" = some (setKey sampleForm "hobbies"
        (FormDataValue.arr ([hobbyChess].set 0 hobbySki))) ∧
    ([hobbyChess].set 0 hobbySki).length = [hobbyChess].length ∧
    lookupKey (setKey sampleForm "hobbies"
        (FormDataValue.arr ([hobbyChess].set 0 hobbySki))) "age" =
      lookupKey sampleForm "age" ∧
    lookupKey (updateFormArray sampleState "f1" "hobbies" 0 hobbySki).forms
      "f2" = lookupKey sampleState.forms "f2" ∧
    (updateFormArray sampleState "f1" "hobbies" 0 hobbySki).errors =
      sampleState.errors := by
  have h := updateFormArray_in_range sampleState "f1" "hobbies" 0 hobbySki
    sampleForm [hobbyChess] rfl rfl (by decide) (by decide)
  exact ⟨h.1, h.2.2.1, h.2.2.2.2.2.1 "age" (by decide),
    h.2.2.2.2.2.2.1 "f2" (by decide), h.2.2.2.2.2.2.2⟩

/-- Claim C6: `addToFormArray` appends the value at the end of the
array-valued field, and a subsequent `removeFromFormArray` at the appended
element's index returns the field to the original array, with the original
elements in their original order. -/
theorem addToFormArray_removeFromFormArray_roundtrip (s : FormState)
    (fk fd : String) (v : FormDataValue) (form : FormData)
    (a : List FormDataValue)
    (hform : lookupKey s.forms fk = some form)
    (hfield : lookupKey form fd = some (FormDataValue.arr a)) :
    lookupKey (readForm (addToFormArray s fk fd v) fk) fd =
      some (FormDataValue.arr (a ++ [v])) ∧
    lookupKey (readForm (removeFromFormArray (addToFormArray s fk fd v) fk fd
      (a.length : Int)) fk) fd = some (FormDataValue.arr a) := by
  have hadd := addToFormArray_applicable s fk fd v form a hform hfield
  have hform1 : lookupKey (addToFormArray s fk fd v).forms fk =
      some (setKey form fd (FormDataValue.arr (a ++ [v]))) := by
    rw [hadd]
    exact lookupKey_setKey_self _ _ _
  have hfield1 : lookupKey (setKey form fd (FormDataValue.arr (a ++ [v]))) fd =
      some (FormDataValue.arr (a ++ [v])) := lookupKey_setKey_self _ _ _
  constructor
  · simp only [readForm]
    rw [hform1, Option.getD_some, hfield1]
  · have hrem := removeFromFormArray_applicable (addToFormArray s fk fd v)
      fk fd (a.length : Int) (setKey form fd (FormDataValue.arr (a ++ [v])))
      (a ++ [v]) hform1 hfield1
    rw [jsArrayRemove_append_length a v, setKey_setKey] at hrem
    simp only [readForm]
    rw [hrem, hadd]
    show lookupKey ((lookupKey (setKey (setKey s.forms fk _) fk
      (setKey form fd (FormDataValue.arr a))) fk).getD []) fd = _
    rw [setKey_setKey, lookupKey_setKey_self, Option.getD_some,
      lookupKey_setKey_self]

/-- Witness for claim C6 at the concrete store of the spec's example:
`hobbies` of `f1` becomes `[chess, ski]` after the append, and removing at
index `1` restores `[chess]`. -/
theorem addToFormArray_removeFromFormArray_roundtrip_witness :
    lookupKey (readForm (addToFormArray sampleState "f1" "hobbies" hobbySki)
      "f1") "hobbies" = some (FormDataValue.arr [hobbyChess, hobbySki]) ∧
    lookupKey (readForm (removeFromFormArray
      (addToFormArray sampleState "f1" "hobbies" hobbySki) "f1" "hobbies"
      (([hobbyChess] : List FormDataValue).length : Int)) "f1") "hobbies" =
      some (FormDataValue.arr [hobbyChess]) :=
  ⟨(addToFormArray_removeFromFormArray_roundtrip sampleState "f1" "hobbies"
      hobbySki sampleForm [hobbyChess] rfl rfl).1,
    (addToFormArray_removeFromFormArray_roundtrip sampleState "f1" "hobbies"
      hobbySki sampleForm [hobbyChess] rfl rfl).2⟩

/-- Claim C2: in the local-state hook, when submit's whole-record validation
fails, the success callback is never invoked, an error message (from one of
the reported issues for that path) is set for every field that failed
validation, every field's value is left unchanged, and every field whose
path is not among the issues keeps its entire slot — value and error —
unchanged. -/
theorem handleSubmit_failure
    (validate : FormValues → Except (List ZodIssue) FormValues)
    (st : LocalFormState) (issues : List ZodIssue)
    (hfail : validate (getFormValues st) = Except.error issues)
    (hpaths : ∀ iss ∈ issues, iss.path ∈ keys st) :
    (handleSubmit validate st).2 = none ∧
    (∀ f, (lookupKey (handleSubmit validate st).1 f).map FieldState.value =
      (lookupKey st f).map FieldState.value) ∧
    (∀ iss ∈ issues, ∃ iss2 ∈ issues, iss2.path = iss.path ∧
      (lookupKey (handleSubmit validate st).1 iss.path).map FieldState.error =
        some (some iss2.message)) ∧
    (∀ f, f ∉ issues.map ZodIssue.path →
      lookupKey (handleSubmit validate st).1 f = lookupKey st f) := by
  have hs : handleSubmit validate st = (issues.foldl applyIssue st, none) := by
    unfold handleSubmit
    rw [hfail]
  rw [hs]
  refine ⟨rfl, ?_, ?_, ?_⟩
  · intro f
    exact values_foldl_applyIssue issues st hpaths f
  · intro iss hmem
    exact error_foldl_applyIssue_mem issues st iss.path
      (List.mem_map_of_mem ZodIssue.path hmem)
  · intro f hf
    exact lookupKey_foldl_applyIssue_not_mem issues st f hf

/-- Witness for claim C2 at the spec's example: defaults
`{name: "Alice", age: 0}` with a schema requiring a positive age; the
callback is not invoked, `age` keeps its value and gets the schema's
message, and `name`'s slot is untouched. -/
theorem handleSubmit_failure_witness :
    (handleSubmit validate0 st0).2 = none ∧
    (lookupKey (handleSubmit validate0 st0).1 "age").map FieldState.value =
      (lookupKey st0 "age").map FieldState.value ∧
    (∃ iss2 ∈ issues0, iss2.path = "age" ∧
      (lookupKey (handleSubmit validate0 st0).1 "age").map FieldState.error =
        some (some iss2.message)) ∧
    lookupKey (handleSubmit validate0 st0).1 "name" = lookupKey st0 "name" := by
  have h := handleSubmit_failure validate0 st0 issues0 rfl (by decide)
  exact ⟨h.1, h.2.1 "age",
    h.2.2.1 ⟨"age", "Age must be positive"⟩ (List.mem_cons_self _ _),
    h.2.2.2 "name" (by decide)⟩

end FormStore
